import Mathlib

/-!
Verification of the text-chunking and paced auto-advance pager of
`src/index.ts` (class `TwitterGlassesApp`).  The definitions below are a
shallow embedding of the TypeScript source: strings are lists of
characters, JavaScript numbers are `Int`, `String.prototype.lastIndexOf`
and `String.prototype.substring` are modelled with their ECMAScript
clamping semantics, and the `while` loop of `chunkText` is modelled with
an explicit fuel argument (`none` means the loop did not finish within
the given fuel; a result that is `none` for every fuel is a
non-terminating run).
-/

/-- Search pattern for a period followed by a space, as searched for by
`text.lastIndexOf` on source line 498. -/
def periodPat : List Char := ['.', ' ']

/-- Search pattern for a question mark followed by a space (source line 499). -/
def questionPat : List Char := ['?', ' ']

/-- Search pattern for an exclamation mark followed by a space (source line 500). -/
def exclamationPat : List Char := ['!', ' ']

/-- Search pattern for a single space (source line 514). -/
def spacePat : List Char := [' ']

/-- `matchAt text pat i` holds when `pat` occurs in `text` starting at
index `i` (the whole pattern must lie inside the text, as for JavaScript
`lastIndexOf`). -/
def matchAt (text pat : List Char) (i : Nat) : Bool :=
  List.take pat.length (List.drop i text) == pat

/-- Helper for `lastIndexOf`: the largest index `≤ k` at which `pat`
occurs in `text`, or `-1` when there is none. -/
def lastIndexOfFrom (text pat : List Char) : Nat → Int
  | 0 => if matchAt text pat 0 then 0 else -1
  | k + 1 => if matchAt text pat (k + 1) then ((k + 1 : Nat) : Int) else lastIndexOfFrom text pat k

/-- JavaScript `text.lastIndexOf(pat, fromIndex)`: the largest index
`≤ fromIndex` at which `pat` occurs, with `fromIndex` clamped to
`[0, text.length]`; `-1` when there is no occurrence. -/
def lastIndexOf (text pat : List Char) (fromIndex : Int) : Int :=
  lastIndexOfFrom text pat (min fromIndex (text.length : Int)).toNat

/-- JavaScript `text.substring(a, b)`: both arguments are clamped to
`[0, text.length]` and swapped when out of order. -/
def jsSubstring (text : List Char) (a b : Int) : List Char :=
  let a2 := (min (max a 0) (text.length : Int)).toNat
  let b2 := (min (max b 0) (text.length : Int)).toNat
  List.take (max a2 b2 - min a2 b2) (List.drop (min a2 b2) text)

/-- The ternary `pos > minBreakPos ? pos + 2 : -1` of source lines
505-507, with `minBreakPos = startPos + maxLength / 2` (exact JavaScript
float division, expressed integrally: `pos > startPos + maxLength / 2`
iff `2 * pos > 2 * startPos + maxLength`). -/
def breakCandidate (pos startPos maxLength : Int) : Int :=
  if 2 * pos > 2 * startPos + maxLength then pos + 2 else -1

/-- The break-point computation of one iteration of `chunkText`
(source lines 492-519): the hard cut `min (startPos + maxLength)
text.length`, moved to the best qualifying sentence break
(`Math.max` of the three `breakCandidate` ternaries), otherwise to
`spacePos + 1` for the last space when
`spacePos > startPos + maxLength/2`, otherwise kept. -/
def computeEndPos (text : List Char) (maxLength startPos : Int) : Int :=
  let endPos := min (startPos + maxLength) (text.length : Int)
  if endPos < (text.length : Int) then
    let periodPos := lastIndexOf text periodPat endPos
    let questionPos := lastIndexOf text questionPat endPos
    let exclamationPos := lastIndexOf text exclamationPat endPos
    let breakPos :=
      max (breakCandidate periodPos startPos maxLength)
        (max (breakCandidate questionPos startPos maxLength)
          (breakCandidate exclamationPos startPos maxLength))
    if breakPos ≠ -1 then breakPos
    else
      let spacePos := lastIndexOf text spacePat endPos
      if 2 * spacePos > 2 * startPos + maxLength then spacePos + 1 else endPos
  else endPos

/-- The `while (startPos < text.length)` loop of `chunkText`
(source lines 491-526), with explicit fuel: each iteration emits
`text.substring(startPos, endPos)` and continues at
`startPos = endPos - overlap`.  `none` means the fuel was exhausted
before the loop condition became false. -/
def chunkTextLoop (text : List Char) (maxLength overlap : Int) : Nat → Int → Option (List (List Char))
  | 0, _ => none
  | fuel + 1, startPos =>
    if startPos < (text.length : Int) then
      let endPos := computeEndPos text maxLength startPos
      Option.map (fun rest => jsSubstring text startPos endPos :: rest)
        (chunkTextLoop text maxLength overlap fuel (endPos - overlap))
    else
      some []

/-- `chunkText(text, maxLength, overlap)` (source lines 487-529), run with
the given fuel starting from `startPos = 0`. -/
def chunkText (text : List Char) (maxLength overlap : Int) (fuel : Nat) : Option (List (List Char)) :=
  chunkTextLoop text maxLength overlap fuel 0

/-- A sentence break (one of `". "`, `"? "`, `"! "`) occurs at index `i`. -/
def sentenceBreakAt (text : List Char) (i : Nat) : Bool :=
  matchAt text periodPat i || matchAt text questionPat i || matchAt text exclamationPat i

/-- Modelled from the spec wording of the break rule (spec section 4.1 step 2,
quoted by claim C3): identical to `computeEndPos` except that a sentence
terminator at position `pos` qualifies when its resulting break position
`pos + 2` exceeds `startPos + maxLength/2`, whereas the source code tests
the match position `pos` itself against that threshold. -/
def specBreakCandidate (pos startPos maxLength : Int) : Int :=
  if 2 * (pos + 2) > 2 * startPos + maxLength then pos + 2 else -1

/-- Modelled from the spec wording of the break rule (spec section 4.1
step 2, quoted by claim C3), continued: identical to `computeEndPos`
except for the qualification tested by `specBreakCandidate`. -/
def specBreakEndPos (text : List Char) (maxLength startPos : Int) : Int :=
  let endPos := min (startPos + maxLength) (text.length : Int)
  if endPos < (text.length : Int) then
    let periodPos := lastIndexOf text periodPat endPos
    let questionPos := lastIndexOf text questionPat endPos
    let exclamationPos := lastIndexOf text exclamationPat endPos
    let breakPos :=
      max (specBreakCandidate periodPos startPos maxLength)
        (max (specBreakCandidate questionPos startPos maxLength)
          (specBreakCandidate exclamationPos startPos maxLength))
    if breakPos ≠ -1 then breakPos
    else
      let spacePos := lastIndexOf text spacePat endPos
      if 2 * spacePos > 2 * startPos + maxLength then spacePos + 1 else endPos
  else endPos

/-! ## Pager state (fields of `TwitterGlassesApp`, source lines 9-14) -/

/-- The mutable per-session fields of `TwitterGlassesApp` that the chunk
pager reads and writes (source lines 9-14).  `autoAdvanceTimer` models
whether the `NodeJS.Timeout` handle is non-null. -/
structure PagerState where
  twitterChunks : List (List Char)
  currentChunkIndex : Int
  autoAdvanceTimer : Bool
  isAutoAdvancing : Bool
  readingSpeed : Int
  overlapTime : Int
deriving DecidableEq, Repr

/-- The initial field values of `TwitterGlassesApp` (source lines 9-14):
`readingSpeed = 5000`, `overlapTime = 1800`. -/
def initialPagerState : PagerState :=
  { twitterChunks := []
    currentChunkIndex := 0
    autoAdvanceTimer := false
    isAutoAdvancing := false
    readingSpeed := 5000
    overlapTime := 1800 }

/-- A call to `session.layouts.showTextWall` made by `displayTwitterChunk`
(source lines 406-410): the displayed content and its `durationMs`. -/
structure DisplayCall where
  content : List Char
  durationMs : Int
deriving DecidableEq, Repr

/-- The progress indicator of `displayTwitterChunk` (source line 403),
the template literal rendering of the 1-based index and the total. -/
def progressLabel (index total : Nat) : List Char :=
  ['['] ++ Nat.toDigits 10 index ++ ['/'] ++ Nat.toDigits 10 total ++ [']']

/-- The immediate display effect of `displayTwitterChunk` (source lines
400-413): a `showTextWall` call happens only under the guard
`currentChunkIndex >= 0 && currentChunkIndex < twitterChunks.length`;
the content is the progress label, a blank line, and the current chunk;
the duration is `readingSpeed`.  The `setTimeout` this method schedules
afterwards (source lines 415-422) is modelled by `advanceCallback`. -/
def displayTwitterChunk (chunks : List (List Char)) (index readingSpeed : Int) : Option DisplayCall :=
  if 0 ≤ index ∧ index < (chunks.length : Int) then
    some
      { content := progressLabel (index.toNat + 1) chunks.length ++ ['\n', '\n'] ++ chunks.getD index.toNat []
        durationMs := readingSpeed }
  else
    none

/-- `stopAutoAdvance` (source lines 437-448): clears the (never armed)
interval handle and sets `isAutoAdvancing` to false; pending `setTimeout`
callbacks are neutralised through that flag. -/
def stopAutoAdvance (s : PagerState) : PagerState :=
  { s with autoAdvanceTimer := false, isAutoAdvancing := false }

/-- `startAutoAdvance` (source lines 426-435): stop, set the flag, and
display the current chunk (which schedules the next advance). -/
def startAutoAdvance (s : PagerState) : PagerState × Option DisplayCall :=
  let s1 := { stopAutoAdvance s with isAutoAdvancing := true }
  (s1, displayTwitterChunk s1.twitterChunks s1.currentChunkIndex s1.readingSpeed)

/-- Loading a fetched profile into the pager (source lines 356-357):
`this.twitterChunks = this.chunkText(...)`, `this.currentChunkIndex = 0`. -/
def loadChunks (s : PagerState) (chunks : List (List Char)) : PagerState :=
  { s with twitterChunks := chunks, currentChunkIndex := 0 }

/-- One scheduled advance callback firing (the `setTimeout` body of
source lines 416-421): if `isAutoAdvancing` is still set, increment the
index and re-display; otherwise do nothing.  Returns the new state and
the display call the firing produced, if any. -/
def advanceCallback (s : PagerState) : PagerState × Option DisplayCall :=
  if s.isAutoAdvancing then
    let s1 := { s with currentChunkIndex := s.currentChunkIndex + 1 }
    (s1, displayTwitterChunk s1.twitterChunks s1.currentChunkIndex s1.readingSpeed)
  else
    (s, none)

/-- Firing `n` queued advance callbacks in sequence, collecting every
display call they produce. -/
def fireCallbacks (s : PagerState) : Nat → PagerState × List DisplayCall
  | 0 => (s, [])
  | n + 1 =>
    let step := advanceCallback s
    let rest := fireCallbacks step.1 n
    (rest.1, step.2.toList ++ rest.2)

/-- Boundary notifications shown by the navigation branches
(source lines 170 and 181). -/
inductive BoundaryNote where
  | endReached
  | beginningReached
deriving DecidableEq, Repr

/-- The `next`/`continue` voice-command branch (source lines 162-173):
stop auto-advance, increment the index, clamp at the last chunk with an
end-reached notification, otherwise display.  Returns the new state, the
boundary notification, and the display call, if any. -/
def nextCommand (s : PagerState) : PagerState × Option BoundaryNote × Option DisplayCall :=
  let s1 := stopAutoAdvance s
  let i := s1.currentChunkIndex + 1
  if i ≥ (s1.twitterChunks.length : Int) then
    ({ s1 with currentChunkIndex := (s1.twitterChunks.length : Int) - 1 }, some BoundaryNote.endReached, none)
  else
    let s2 := { s1 with currentChunkIndex := i }
    (s2, none, displayTwitterChunk s2.twitterChunks s2.currentChunkIndex s2.readingSpeed)

/-- The `previous`/`back` voice-command branch (source lines 174-184):
stop auto-advance, decrement the index, clamp at zero with a
beginning-reached notification, otherwise display. -/
def previousCommand (s : PagerState) : PagerState × Option BoundaryNote × Option DisplayCall :=
  let s1 := stopAutoAdvance s
  let i := s1.currentChunkIndex - 1
  if i < 0 then
    ({ s1 with currentChunkIndex := 0 }, some BoundaryNote.beginningReached, none)
  else
    let s2 := { s1 with currentChunkIndex := i }
    (s2, none, displayTwitterChunk s2.twitterChunks s2.currentChunkIndex s2.readingSpeed)

/-- `adjustReadingSpeed` (source lines 450-484): clamp the new speed to
`[500, 10000]`, recompute `overlapTime = max 400 (readingSpeed - 200)`,
and, when auto-advancing, stop (the deferred restart it schedules after
2000 ms is a separate `startAutoAdvance` event). -/
def adjustReadingSpeed (s : PagerState) (adjustment : Int) : PagerState :=
  let rs := max 500 (min 10000 (s.readingSpeed + adjustment))
  let s1 := { s with readingSpeed := rs, overlapTime := max 400 (rs - 200) }
  if s1.isAutoAdvancing then stopAutoAdvance s1 else s1

/-! ## Concrete inputs used by the claims -/

/-- The regression input `"A. B. C."` of claim C1. -/
def c1Text : List Char := ['A', '.', ' ', 'B', '.', ' ', 'C', '.']

/-- The non-empty input `"Hi."` used for claim C2. -/
def c2Text : List Char := ['H', 'i', '.']

/-- The input `"abcd"` used for claim C4. -/
def c4Text : List Char := ['a', 'b', 'c', 'd']

/-- The input `"abcde. gh jklmnop"` used for claim C3: the only sentence
break sits at index 5, exactly the minimum break position for
`maxLength = 10`, and a later space sits at index 9. -/
def c3Text : List Char :=
  ['a', 'b', 'c', 'd', 'e', '.', ' ', 'g', 'h', ' ', 'j', 'k', 'l', 'm', 'n', 'o', 'p']

/-- The input `"abcdef. xyzw"` used by the C3 witness (sentence branch). -/
def c3aText : List Char := ['a', 'b', 'c', 'd', 'e', 'f', '.', ' ', 'x', 'y', 'z', 'w']

/-- The input `"abcde fg hjklmnop"` used by the C3 witness (space branch). -/
def c3bText : List Char :=
  ['a', 'b', 'c', 'd', 'e', ' ', 'f', 'g', ' ', 'h', 'j', 'k', 'l', 'm', 'n', 'o', 'p']

/-- The input `"abc defghijklmnop"` used by the C3 witness (hard-cut branch). -/
def c3cText : List Char :=
  ['a', 'b', 'c', ' ', 'd', 'e', 'f', 'g', 'h', 'i', 'j', 'k', 'l', 'm', 'n', 'o', 'p']

/-- The input `"abcd. xyz"` used for claim C9: the sentence break at
index 4 sits exactly at the hard cut for `maxLength = 4`, so the emitted
break position `4 + 2` exceeds `startPos + maxLength`. -/
def c9Text : List Char := ['a', 'b', 'c', 'd', '.', ' ', 'x', 'y', 'z']

/-- A one-chunk pager state (index 0 is simultaneously the first and the
last index), used by the claim C6 witness. -/
def c6State : PagerState :=
  { twitterChunks := [['a']]
    currentChunkIndex := 0
    autoAdvanceTimer := false
    isAutoAdvancing := false
    readingSpeed := 5000
    overlapTime := 1800 }

/-! ## Properties of the embedded string primitives -/

/-- A full pattern match at `i` lies inside the text. -/
theorem matchAt_length (text pat : List Char) (i : Nat)
    (h : matchAt text pat i = true) (hne : pat ≠ []) :
    i + pat.length ≤ text.length := by
  have hpat : List.take pat.length (List.drop i text) = pat := by
    simpa [matchAt] using h
  have hlen := congrArg List.length hpat
  simp only [List.length_take, List.length_drop] at hlen
  have hpos : 0 < pat.length := List.length_pos.mpr hne
  omega

/-- `lastIndexOfFrom text pat k` is `-1` exactly when no occurrence lies
at an index `≤ k`; otherwise it is the largest such index. -/
theorem lastIndexOfFrom_spec (text pat : List Char) (k : Nat) :
    (lastIndexOfFrom text pat k = -1 ∧ ∀ q, q ≤ k → matchAt text pat q = false) ∨
    (∃ p : Nat, lastIndexOfFrom text pat k = (p : Int) ∧ p ≤ k ∧ matchAt text pat p = true ∧
      ∀ q, q ≤ k → matchAt text pat q = true → q ≤ p) := by
  induction k with
  | zero =>
    by_cases h : matchAt text pat 0 = true
    · right
      refine ⟨0, by simp [lastIndexOfFrom, h], Nat.le_refl 0, h, ?_⟩
      intro q hq _
      omega
    · left
      refine ⟨by simp [lastIndexOfFrom, h], ?_⟩
      intro q hq
      have hq0 : q = 0 := by omega
      subst hq0
      simpa using h
  | succ k ih =>
    by_cases h : matchAt text pat (k + 1) = true
    · right
      refine ⟨k + 1, by simp [lastIndexOfFrom, h], Nat.le_refl _, h, ?_⟩
      intro q hq _
      omega
    · rcases ih with ⟨h1, h2⟩ | ⟨p, hp, hpk, hpm, hpmax⟩
      · left
        refine ⟨by simp [lastIndexOfFrom, h, h1], ?_⟩
        intro q hq
        rcases Nat.lt_or_ge q (k + 1) with hlt | hge
        · exact h2 q (by omega)
        · have hq1 : q = k + 1 := by omega
          subst hq1
          simpa using h
      · right
        refine ⟨p, by simp [lastIndexOfFrom, h, hp], by omega, hpm, ?_⟩
        intro q hq hm
        rcases Nat.lt_or_ge q (k + 1) with hlt | hge
        · exact hpmax q (by omega) hm
        · have hq1 : q = k + 1 := by omega
          subst hq1
          exact absurd hm h

/-- Dichotomy for `lastIndexOf`: either `-1`, or a genuine in-bounds
occurrence position not exceeding the (clamped) search start. -/
theorem lastIndexOf_info (text pat : List Char) (n : Int) (hne : pat ≠ []) :
    lastIndexOf text pat n = -1 ∨
    (0 ≤ lastIndexOf text pat n ∧
      lastIndexOf text pat n + (pat.length : Int) ≤ (text.length : Int) ∧
      lastIndexOf text pat n ≤ max n 0) := by
  rcases lastIndexOfFrom_spec text pat (min n (text.length : Int)).toNat with ⟨h1, _⟩ | ⟨p, hp, hpk, hpm, _⟩
  · left
    simpa [lastIndexOf] using h1
  · right
    have hb := matchAt_length text pat p hpm hne
    have hre : lastIndexOf text pat n = (p : Int) := by simpa [lastIndexOf] using hp
    rw [hre]
    omega

/-- When `p` is an occurrence position within the search range that
dominates every other occurrence in the range, `lastIndexOf` returns `p`. -/
theorem lastIndexOf_eq_of_max (text pat : List Char) (n : Int) (p : Nat)
    (hne : pat ≠ []) (hm : matchAt text pat p = true) (hple : (p : Int) ≤ n)
    (hmax : ∀ q : Nat, q ≤ n.toNat → matchAt text pat q = true → q ≤ p) :
    lastIndexOf text pat n = (p : Int) := by
  have hb := matchAt_length text pat p hm hne
  have hpos : 0 < pat.length := List.length_pos.mpr hne
  have hpk : p ≤ (min n (text.length : Int)).toNat := by omega
  rcases lastIndexOfFrom_spec text pat (min n (text.length : Int)).toNat with ⟨_, h2⟩ | ⟨r, hr, hrk, hrm, hrmax⟩
  · exact absurd hm (by simp [h2 p hpk])
  · have hle1 : p ≤ r := hrmax p hpk hm
    have hle2 : r ≤ p := hmax r (by omega) hrm
    have hrp : r = p := by omega
    subst hrp
    simpa [lastIndexOf] using hr

/-- When no occurrence lies in the search range, `lastIndexOf` is `-1`. -/
theorem lastIndexOf_eq_neg_of (text pat : List Char) (n : Int)
    (hnone : ∀ q : Nat, q ≤ n.toNat → matchAt text pat q = false) :
    lastIndexOf text pat n = -1 := by
  rcases lastIndexOfFrom_spec text pat (min n (text.length : Int)).toNat with ⟨h1, _⟩ | ⟨p, hp, hpk, hpm, _⟩
  · simpa [lastIndexOf] using h1
  · exact absurd (hnone p (by omega)) (by simp [hpm])

/-- Each sentence-break candidate is `-1` or the dominated break position. -/
theorem breakCandidate_cases (pos startPos maxLength : Int) :
    breakCandidate pos startPos maxLength = -1 ∨
    (breakCandidate pos startPos maxLength = pos + 2 ∧ 2 * pos > 2 * startPos + maxLength) := by
  unfold breakCandidate
  split_ifs with h
  · exact Or.inr ⟨rfl, h⟩
  · exact Or.inl rfl

/-- Bounds of a single break computation: the break position never
exceeds the text length, and, for a loop-reachable start position
(`0 ≤ startPos < text.length` with `0 < maxLength`), the emitted range is
non-empty and at most `maxLength + 2` long. -/
theorem computeEndPos_bounds (text : List Char) (maxLength s : Int)
    (hlen : 1 ≤ (text.length : Int)) :
    computeEndPos text maxLength s ≤ (text.length : Int) ∧
    (0 ≤ s → 0 < maxLength → s < (text.length : Int) →
      s < computeEndPos text maxLength s ∧
      computeEndPos text maxLength s ≤ s + maxLength + 2) := by
  have hP := lastIndexOf_info text periodPat (min (s + maxLength) (text.length : Int)) (by decide)
  have hQ := lastIndexOf_info text questionPat (min (s + maxLength) (text.length : Int)) (by decide)
  have hE := lastIndexOf_info text exclamationPat (min (s + maxLength) (text.length : Int)) (by decide)
  have hS := lastIndexOf_info text spacePat (min (s + maxLength) (text.length : Int)) (by decide)
  have hcP := breakCandidate_cases (lastIndexOf text periodPat (min (s + maxLength) (text.length : Int))) s maxLength
  have hcQ := breakCandidate_cases (lastIndexOf text questionPat (min (s + maxLength) (text.length : Int))) s maxLength
  have hcE := breakCandidate_cases (lastIndexOf text exclamationPat (min (s + maxLength) (text.length : Int))) s maxLength
  simp only [show periodPat.length = 2 from rfl, show questionPat.length = 2 from rfl,
    show exclamationPat.length = 2 from rfl, show spacePat.length = 1 from rfl] at hP hQ hE hS
  simp only [computeEndPos]
  split_ifs <;> omega

/-- For positive overlap and a non-empty text, the `chunkText` loop
never terminates from any in-range start position: `startPos` is always
re-entered below `text.length`. -/
theorem chunkTextLoop_diverges (text : List Char) (maxLength overlap : Int)
    (hov : 1 ≤ overlap) (hlen : 1 ≤ (text.length : Int)) :
    ∀ (fuel : Nat) (s : Int), s < (text.length : Int) →
      chunkTextLoop text maxLength overlap fuel s = none := by
  intro fuel
  induction fuel with
  | zero => intro s hs; rfl
  | succ n ih =>
    intro s hs
    have hb := (computeEndPos_bounds text maxLength s hlen).1
    simp only [chunkTextLoop, if_pos hs]
    rw [ih (computeEndPos text maxLength s - overlap) (by omega)]
    rfl

/-- Length of a `substring` with ordered in-range arguments. -/
theorem jsSubstring_length (text : List Char) (a b : Int)
    (h0 : 0 ≤ a) (hab : a ≤ b) (hbl : b ≤ (text.length : Int)) :
    ((jsSubstring text a b).length : Int) = b - a := by
  simp only [jsSubstring, List.length_take, List.length_drop]
  omega

/-- For non-positive overlap, every chunk emitted by a terminating run of
the `chunkText` loop (from a non-negative start position) is non-empty
and at most `maxLength + 2` characters long. -/
theorem chunkTextLoop_chunk_bounds (text : List Char) (maxLength overlap : Int)
    (hm : 0 < maxLength) (hov : overlap ≤ 0) :
    ∀ (fuel : Nat) (s : Int), 0 ≤ s →
      ∀ chunks, chunkTextLoop text maxLength overlap fuel s = some chunks →
      ∀ c ∈ chunks, 0 < c.length ∧ (c.length : Int) ≤ maxLength + 2 := by
  intro fuel
  induction fuel with
  | zero =>
    intro s hs chunks h
    exact absurd h (by simp [chunkTextLoop])
  | succ n ih =>
    intro s hs chunks h
    by_cases hlt : s < (text.length : Int)
    · have hlen : 1 ≤ (text.length : Int) := by omega
      have hb := computeEndPos_bounds text maxLength s hlen
      have hgt := hb.2 hs hm hlt
      simp only [chunkTextLoop, if_pos hlt] at h
      rcases Option.map_eq_some'.mp h with ⟨rest, hrest, hchunks⟩
      intro c hc
      rcases List.mem_cons.mp (hchunks ▸ hc) with hc1 | hc2
      · subst hc1
        have hL := jsSubstring_length text s (computeEndPos text maxLength s) hs (by omega) hb.1
        constructor
        · by_contra hzero
          simp only [Nat.not_lt, Nat.le_zero] at hzero
          rw [hzero] at hL
          simp at hL
          omega
        · omega
      · exact ih (computeEndPos text maxLength s - overlap) (by omega) rest hrest c hc2
    · simp only [chunkTextLoop, if_neg hlt] at h
      have hck : chunks = [] := by
        cases h
        rfl
      subst hck
      intro c hc
      simp at hc

/-- When `p` is the rightmost qualifying sentence break in range, the
backward search for a pattern matching at `p` returns exactly `p`. -/
theorem lastIndexOf_qualified_max (text pat : List Char) (maxLength s : Int) (p : Nat)
    (hne : pat ≠ []) (hs : 0 ≤ s) (hm : 0 < maxLength)
    (hsub : ∀ q : Nat, matchAt text pat q = true → sentenceBreakAt text q = true)
    (hmp : matchAt text pat p = true) (hple : (p : Int) ≤ s + maxLength)
    (hpgt : 2 * (p : Int) > 2 * s + maxLength)
    (hpmax : ∀ q : Nat, q ≤ (s + maxLength).toNat → sentenceBreakAt text q = true →
      2 * (q : Int) > 2 * s + maxLength → q ≤ p) :
    lastIndexOf text pat (s + maxLength) = (p : Int) := by
  have hb := matchAt_length text pat p hmp hne
  have hpos : 0 < pat.length := List.length_pos.mpr hne
  have hpk : p ≤ (min (s + maxLength) (text.length : Int)).toNat := by omega
  rcases lastIndexOfFrom_spec text pat (min (s + maxLength) (text.length : Int)).toNat with
    ⟨_, h2⟩ | ⟨r, hr, hrk, hrm, hrmax⟩
  · exact absurd hmp (by simp [h2 p hpk])
  · have h1 : p ≤ r := hrmax p hpk hmp
    have h2 : r ≤ p := hpmax r (by omega) (hsub r hrm) (by omega)
    have hrp : r = p := by omega
    subst hrp
    simpa [lastIndexOf] using hr

/-- When no sentence break in range qualifies, the candidate built from
this pattern is `-1`. -/
theorem breakCandidate_neg_of_no_qual (text pat : List Char) (maxLength s : Int)
    (hs : 0 ≤ s) (hm : 0 < maxLength)
    (hsub : ∀ q : Nat, matchAt text pat q = true → sentenceBreakAt text q = true)
    (hno : ∀ q : Nat, q ≤ (s + maxLength).toNat → sentenceBreakAt text q = true →
      2 * (q : Int) ≤ 2 * s + maxLength) :
    breakCandidate (lastIndexOf text pat (s + maxLength)) s maxLength = -1 := by
  rcases lastIndexOfFrom_spec text pat (min (s + maxLength) (text.length : Int)).toNat with
    ⟨h1, _⟩ | ⟨r, hr, hrk, hrm, _⟩
  · have hR : lastIndexOf text pat (s + maxLength) = -1 := by simpa [lastIndexOf] using h1
    rw [hR]
    unfold breakCandidate
    rw [if_neg (by omega)]
  · have hR : lastIndexOf text pat (s + maxLength) = (r : Int) := by simpa [lastIndexOf] using hr
    have hq := hno r (by omega) (hsub r hrm)
    rw [hR]
    unfold breakCandidate
    rw [if_neg (by omega)]

/-- Every candidate is dominated by the rightmost qualifying sentence
break `p`. -/
theorem breakCandidate_le_of_max (text pat : List Char) (maxLength s : Int) (p : Nat)
    (hs : 0 ≤ s) (hm : 0 < maxLength)
    (hsub : ∀ q : Nat, matchAt text pat q = true → sentenceBreakAt text q = true)
    (hpmax : ∀ q : Nat, q ≤ (s + maxLength).toNat → sentenceBreakAt text q = true →
      2 * (q : Int) > 2 * s + maxLength → q ≤ p) :
    breakCandidate (lastIndexOf text pat (s + maxLength)) s maxLength ≤ (p : Int) + 2 := by
  rcases lastIndexOfFrom_spec text pat (min (s + maxLength) (text.length : Int)).toNat with
    ⟨h1, _⟩ | ⟨r, hr, hrk, hrm, _⟩
  · have hR : lastIndexOf text pat (s + maxLength) = -1 := by simpa [lastIndexOf] using h1
    rw [hR]
    unfold breakCandidate
    split_ifs <;> omega
  · have hR : lastIndexOf text pat (s + maxLength) = (r : Int) := by simpa [lastIndexOf] using hr
    rw [hR]
    unfold breakCandidate
    split_ifs with hq
    · have := hpmax r (by omega) (hsub r hrm) hq
      omega
    · omega

/-- Claim C3, amended: for a chunk whose hard cut falls short of the end
of the text, `chunkText` breaks at the rightmost occurrence of `". "`,
`"? "` or `"! "` at or before `endPos` whose match position (not the
resulting break position `pos + 2`, as the claim stated) is strictly
greater than `startPos + maxLength/2`, setting the end to that position
plus two; if no sentence break qualifies it falls back to the last space
at or before `endPos`, accepted exactly when the space position exceeds
the same threshold (end set to the space position plus one), and
otherwise keeps the hard cut at `startPos + maxLength`. -/
theorem computeEndPos_break_selection (text : List Char) (maxLength s : Int)
    (hs : 0 ≤ s) (hm : 0 < maxLength) (hend : s + maxLength < (text.length : Int)) :
    (∀ p : Nat, sentenceBreakAt text p = true → (p : Int) ≤ s + maxLength →
      2 * (p : Int) > 2 * s + maxLength →
      (∀ q : Nat, q ≤ (s + maxLength).toNat → sentenceBreakAt text q = true →
        2 * (q : Int) > 2 * s + maxLength → q ≤ p) →
      computeEndPos text maxLength s = (p : Int) + 2) ∧
    ((∀ q : Nat, q ≤ (s + maxLength).toNat → sentenceBreakAt text q = true →
        2 * (q : Int) ≤ 2 * s + maxLength) →
      (∀ p : Nat, matchAt text spacePat p = true → (p : Int) ≤ s + maxLength →
        2 * (p : Int) > 2 * s + maxLength →
        (∀ q : Nat, q ≤ (s + maxLength).toNat → matchAt text spacePat q = true → q ≤ p) →
        computeEndPos text maxLength s = (p : Int) + 1) ∧
      ((∀ q : Nat, q ≤ (s + maxLength).toNat → matchAt text spacePat q = true →
          2 * (q : Int) ≤ 2 * s + maxLength) →
        computeEndPos text maxLength s = s + maxLength)) := by
  have hmin : min (s + maxLength) (text.length : Int) = s + maxLength :=
    min_eq_left (le_of_lt hend)
  have hsubP : ∀ q : Nat, matchAt text periodPat q = true → sentenceBreakAt text q = true := by
    intro q hq
    simp [sentenceBreakAt, hq]
  have hsubQ : ∀ q : Nat, matchAt text questionPat q = true → sentenceBreakAt text q = true := by
    intro q hq
    simp [sentenceBreakAt, hq]
  have hsubE : ∀ q : Nat, matchAt text exclamationPat q = true → sentenceBreakAt text q = true := by
    intro q hq
    simp [sentenceBreakAt, hq]
  constructor
  · intro p hp hple hpgt hpmax
    simp only [computeEndPos, hmin]
    rw [if_pos hend]
    simp only [sentenceBreakAt, Bool.or_eq_true] at hp
    rcases hp with (hmp | hmp) | hmp
    · have hR := lastIndexOf_qualified_max text periodPat maxLength s p (by decide) hs hm
        hsubP hmp hple hpgt hpmax
      have hc1 : breakCandidate (lastIndexOf text periodPat (s + maxLength)) s maxLength
          = (p : Int) + 2 := by
        rw [hR]
        unfold breakCandidate
        rw [if_pos hpgt]
      have hc2 := breakCandidate_le_of_max text questionPat maxLength s p hs hm hsubQ hpmax
      have hc3 := breakCandidate_le_of_max text exclamationPat maxLength s p hs hm hsubE hpmax
      have hmx : max (breakCandidate (lastIndexOf text periodPat (s + maxLength)) s maxLength)
          (max (breakCandidate (lastIndexOf text questionPat (s + maxLength)) s maxLength)
            (breakCandidate (lastIndexOf text exclamationPat (s + maxLength)) s maxLength))
          = (p : Int) + 2 := by omega
      rw [hmx, if_pos (show ((p : Int) + 2) ≠ -1 by omega)]
    · have hR := lastIndexOf_qualified_max text questionPat maxLength s p (by decide) hs hm
        hsubQ hmp hple hpgt hpmax
      have hc2 : breakCandidate (lastIndexOf text questionPat (s + maxLength)) s maxLength
          = (p : Int) + 2 := by
        rw [hR]
        unfold breakCandidate
        rw [if_pos hpgt]
      have hc1 := breakCandidate_le_of_max text periodPat maxLength s p hs hm hsubP hpmax
      have hc3 := breakCandidate_le_of_max text exclamationPat maxLength s p hs hm hsubE hpmax
      have hmx : max (breakCandidate (lastIndexOf text periodPat (s + maxLength)) s maxLength)
          (max (breakCandidate (lastIndexOf text questionPat (s + maxLength)) s maxLength)
            (breakCandidate (lastIndexOf text exclamationPat (s + maxLength)) s maxLength))
          = (p : Int) + 2 := by omega
      rw [hmx, if_pos (show ((p : Int) + 2) ≠ -1 by omega)]
    · have hR := lastIndexOf_qualified_max text exclamationPat maxLength s p (by decide) hs hm
        hsubE hmp hple hpgt hpmax
      have hc3 : breakCandidate (lastIndexOf text exclamationPat (s + maxLength)) s maxLength
          = (p : Int) + 2 := by
        rw [hR]
        unfold breakCandidate
        rw [if_pos hpgt]
      have hc1 := breakCandidate_le_of_max text periodPat maxLength s p hs hm hsubP hpmax
      have hc2 := breakCandidate_le_of_max text questionPat maxLength s p hs hm hsubQ hpmax
      have hmx : max (breakCandidate (lastIndexOf text periodPat (s + maxLength)) s maxLength)
          (max (breakCandidate (lastIndexOf text questionPat (s + maxLength)) s maxLength)
            (breakCandidate (lastIndexOf text exclamationPat (s + maxLength)) s maxLength))
          = (p : Int) + 2 := by omega
      rw [hmx, if_pos (show ((p : Int) + 2) ≠ -1 by omega)]
  · intro hno
    have h1 := breakCandidate_neg_of_no_qual text periodPat maxLength s hs hm hsubP hno
    have h2 := breakCandidate_neg_of_no_qual text questionPat maxLength s hs hm hsubQ hno
    have h3 := breakCandidate_neg_of_no_qual text exclamationPat maxLength s hs hm hsubE hno
    constructor
    · intro p hmp hple hpgt hpmax
      simp only [computeEndPos, hmin]
      rw [if_pos hend, h1, h2, h3, max_self, max_self,
        if_neg (show ¬((-1 : Int) ≠ -1) by simp)]
      have hS := lastIndexOf_eq_of_max text spacePat (s + maxLength) p (by decide) hmp hple hpmax
      rw [hS, if_pos hpgt]
    · intro hnos
      simp only [computeEndPos, hmin]
      rw [if_pos hend, h1, h2, h3, max_self, max_self,
        if_neg (show ¬((-1 : Int) ≠ -1) by simp)]
      rcases lastIndexOfFrom_spec text spacePat (min (s + maxLength) (text.length : Int)).toNat with
        ⟨hh, _⟩ | ⟨r, hr, hrk, hrm, _⟩
      · have hS : lastIndexOf text spacePat (s + maxLength) = -1 := by
          simpa [lastIndexOf] using hh
        rw [hS, if_neg (by omega)]
      · have hS : lastIndexOf text spacePat (s + maxLength) = (r : Int) := by
          simpa [lastIndexOf] using hr
        have hq := hnos r (by omega) hrm
        rw [hS, if_neg (by omega)]

/-! ## Pager lemmas -/

/-- Once `isAutoAdvancing` is false, firing any number of queued advance
callbacks changes nothing and displays nothing. -/
theorem fireCallbacks_stopped (s : PagerState) (h : s.isAutoAdvancing = false) :
    ∀ n : Nat, fireCallbacks s n = (s, []) := by
  intro n
  induction n with
  | zero => rfl
  | succ k ih =>
    have hstep : advanceCallback s = (s, none) := by
      simp [advanceCallback, h]
    simp [fireCallbacks, hstep, ih]

/-- Fields of a single speed adjustment: the new reading speed is
clamped to `[500, 10000]` and the overlap time is re-derived from it. -/
theorem adjustReadingSpeed_fields (s : PagerState) (d : Int) :
    500 ≤ (adjustReadingSpeed s d).readingSpeed ∧
    (adjustReadingSpeed s d).readingSpeed ≤ 10000 ∧
    (adjustReadingSpeed s d).overlapTime
      = max 400 ((adjustReadingSpeed s d).readingSpeed - 200) := by
  obtain ⟨chunks, idx, t, adv, rs, ot⟩ := s
  simp only [adjustReadingSpeed, stopAutoAdvance]
  split_ifs <;> refine ⟨?_, ?_, ?_⟩ <;> simp

/-- The clamp bounds are preserved by any sequence of adjustments. -/
theorem foldl_adjust_bounds : ∀ (ds : List Int) (s : PagerState),
    500 ≤ s.readingSpeed → s.readingSpeed ≤ 10000 →
    500 ≤ (ds.foldl adjustReadingSpeed s).readingSpeed ∧
    (ds.foldl adjustReadingSpeed s).readingSpeed ≤ 10000 := by
  intro ds
  induction ds with
  | nil => intro s h1 h2; exact ⟨h1, h2⟩
  | cons d rest ih =>
    intro s h1 h2
    have h := adjustReadingSpeed_fields s d
    simpa [List.foldl] using ih (adjustReadingSpeed s d) h.1 h.2.1

/-- After at least one adjustment, the overlap time is derived from the
reading speed. -/
theorem foldl_adjust_overlap : ∀ (ds : List Int) (s : PagerState), ds ≠ [] →
    (ds.foldl adjustReadingSpeed s).overlapTime
      = max 400 ((ds.foldl adjustReadingSpeed s).readingSpeed - 200) := by
  intro ds
  induction ds with
  | nil => intro s h; exact absurd rfl h
  | cons d rest ih =>
    intro s _
    cases rest with
    | nil => simpa [List.foldl] using (adjustReadingSpeed_fields s d).2.2
    | cons e rest2 =>
      simpa [List.foldl] using ih (adjustReadingSpeed s d) (by simp)

/-! ## Claim theorems -/

/-- Claim C1 (refuted, code bug): the regression input
`chunkText("A. B. C.", 4, 2)` never terminates.  After the final segment
is reached the loop re-enters at `startPos = text.length - overlap` and
stays there, so no amount of fuel completes the loop. -/
theorem chunkText_regression_diverges (fuel : Nat) : chunkText c1Text 4 2 fuel = none :=
  chunkTextLoop_diverges c1Text 4 2 (by decide) (by decide) fuel 0 (by decide)

/-- Claim C2 (refuted, code bug): on the non-empty text `"Hi."` with the
valid configuration `maxLength = 2`, `overlapChars = 1`, `chunkText`
never returns, so no covering chunk sequence exists. -/
theorem chunkText_coverage_impossible (fuel : Nat) : chunkText c2Text 2 1 fuel = none :=
  chunkTextLoop_diverges c2Text 2 1 (by decide) (by decide) fuel 0 (by decide)

/-- Claim C4 (refuted, code bug): with the invalid configuration
`overlapChars = maxLength = 2` on `"abcd"`, `chunkText` raises no
`InvalidChunkConfig` error (the source performs no validation and has no
throw path at all); the call simply never terminates. -/
theorem chunkText_invalid_config_no_error (fuel : Nat) : chunkText c4Text 2 2 fuel = none :=
  chunkTextLoop_diverges c4Text 2 2 (by decide) (by decide) fuel 0 (by decide)

/-- Claim C8: chunking the empty text under any valid configuration
yields the empty chunk sequence (one fuel step suffices since the loop
condition is immediately false). -/
theorem chunkText_empty (maxLength overlap : Int) (fuel : Nat)
    (_hm : 0 < maxLength) (_ho : 0 ≤ overlap) (_hom : overlap < maxLength) (hf : 1 ≤ fuel) :
    chunkText [] maxLength overlap fuel = some [] := by
  cases fuel with
  | zero => omega
  | succ n => rfl

/-- Witness for claim C8 at the spec instance `chunk("", 500, 200) = []`. -/
theorem chunkText_empty_witness : chunkText [] 500 200 1 = some [] :=
  chunkText_empty 500 200 1 (by decide) (by decide) (by decide) (by decide)

/-- Claim C9 counterexample: with `maxLength = 4` (and overlap 0 so the
run terminates), the first emitted chunk of `"abcd. xyz"` is
`"abcd. "`, of length 6 > 4: an emitted range can exceed
`startPos + maxLength`. -/
theorem chunkText_chunk_exceeds_maxLength :
    chunkText c9Text 4 0 3 = some [['a', 'b', 'c', 'd', '.', ' '], ['x', 'y', 'z']] ∧
    4 < (['a', 'b', 'c', 'd', '.', ' '] : List Char).length := by
  exact ⟨by decide, by decide⟩

/-- Claim C9, amended: every chunk emitted by a terminating `chunkText`
run with `maxLength > 0` is a non-empty contiguous substring of length
at most `maxLength + 2` (the slack of 2 comes from a sentence terminator
matched at the hard-cut position itself, whose break position is the
match position plus two). -/
theorem chunkText_chunk_length_bound (text : List Char) (maxLength overlap : Int)
    (fuel : Nat) (chunks : List (List Char)) (hm : 0 < maxLength)
    (h : chunkText text maxLength overlap fuel = some chunks) :
    ∀ c ∈ chunks, 0 < c.length ∧ (c.length : Int) ≤ maxLength + 2 := by
  rcases le_or_lt overlap 0 with hov | hov
  · exact chunkTextLoop_chunk_bounds text maxLength overlap hm hov fuel 0 le_rfl chunks h
  · by_cases hlen : 1 ≤ (text.length : Int)
    · have hd := chunkTextLoop_diverges text maxLength overlap (by omega) hlen fuel 0 (by omega)
      unfold chunkText at h
      rw [hd] at h
      simp at h
    · have hnil : text = [] := List.length_eq_zero.mp (by omega)
      subst hnil
      cases fuel with
      | zero => simp [chunkText, chunkTextLoop] at h
      | succ n =>
        simp only [chunkText, chunkTextLoop] at h
        rw [if_neg (by simp)] at h
        have hck : chunks = [] := by
          cases h
          rfl
        subst hck
        intro c hc
        simp at hc

/-- Witness for the amended claim C9 on the terminating run
`chunkText("ab", 4, 0)`. -/
theorem chunkText_chunk_length_bound_witness :
    0 < (['a', 'b'] : List Char).length ∧ ((['a', 'b'] : List Char).length : Int) ≤ 4 + 2 :=
  chunkText_chunk_length_bound ['a', 'b'] 4 0 2 [['a', 'b']] (by decide) (by decide)
    ['a', 'b'] (by decide)

/-- Claim C5: after chunks are loaded and auto-advance is started,
stopping before the scheduled delay elapses prevents any further display
for that load: the stopped state has `isAutoAdvancing = false`, so every
already-scheduled advance callback is a no-op, and no matter how many
queued callbacks fire, the state (in particular `currentChunkIndex`,
still 0) is unchanged and no display call is produced until
auto-advance is started again. -/
theorem stop_prevents_further_display (s : PagerState) (chunks : List (List Char)) (n : Nat) :
    (stopAutoAdvance (startAutoAdvance (loadChunks s chunks)).1).isAutoAdvancing = false ∧
    fireCallbacks (stopAutoAdvance (startAutoAdvance (loadChunks s chunks)).1) n
      = (stopAutoAdvance (startAutoAdvance (loadChunks s chunks)).1, []) ∧
    (stopAutoAdvance (startAutoAdvance (loadChunks s chunks)).1).currentChunkIndex = 0 := by
  refine ⟨rfl, ?_, rfl⟩
  exact fireCallbacks_stopped _ rfl n

/-- Claim C6: with a non-empty loaded chunk sequence, `next` at the last
index leaves the index unchanged and signals end-reached, `previous` at
index 0 leaves the index at 0 and signals beginning-reached (neither
raises an error: both commands are total functions), and from any
in-range index both commands leave the index clamped to
`[0, length - 1]`. -/
theorem navigation_boundary_behavior (s : PagerState) (hne : 1 ≤ s.twitterChunks.length) :
    (s.currentChunkIndex = (s.twitterChunks.length : Int) - 1 →
      (nextCommand s).1.currentChunkIndex = (s.twitterChunks.length : Int) - 1 ∧
      (nextCommand s).2.1 = some BoundaryNote.endReached) ∧
    (s.currentChunkIndex = 0 →
      (previousCommand s).1.currentChunkIndex = 0 ∧
      (previousCommand s).2.1 = some BoundaryNote.beginningReached) ∧
    (0 ≤ s.currentChunkIndex → s.currentChunkIndex < (s.twitterChunks.length : Int) →
      0 ≤ (nextCommand s).1.currentChunkIndex ∧
      (nextCommand s).1.currentChunkIndex < (s.twitterChunks.length : Int) ∧
      0 ≤ (previousCommand s).1.currentChunkIndex ∧
      (previousCommand s).1.currentChunkIndex < (s.twitterChunks.length : Int)) := by
  obtain ⟨chunks, idx, t, adv, rs, ot⟩ := s
  simp only [PagerState.currentChunkIndex, PagerState.twitterChunks] at *
  refine ⟨?_, ?_, ?_⟩
  · intro h
    simp only [nextCommand, stopAutoAdvance]
    rw [if_pos (by simp; omega)]
    exact ⟨rfl, rfl⟩
  · intro h
    simp only [previousCommand, stopAutoAdvance]
    rw [if_pos (by simp; omega)]
    exact ⟨rfl, rfl⟩
  · intro h1 h2
    simp only [nextCommand, previousCommand, stopAutoAdvance]
    split_ifs <;> simp <;> omega

/-- Witness for claim C6 on a one-chunk state where index 0 is both the
first and the last position. -/
theorem navigation_boundary_behavior_witness :
    (nextCommand c6State).1.currentChunkIndex = 0 ∧
    (nextCommand c6State).2.1 = some BoundaryNote.endReached ∧
    (previousCommand c6State).1.currentChunkIndex = 0 ∧
    (previousCommand c6State).2.1 = some BoundaryNote.beginningReached := by
  have h := navigation_boundary_behavior c6State (by decide)
  have h1 := h.1 (by decide)
  have h2 := h.2.1 (by decide)
  refine ⟨?_, h1.2, h2.1, h2.2⟩
  rw [h1.1]
  decide

/-- Claim C7 counterexample: in the initial pager state the claimed
derived-overlap equation fails: `overlapTime` is 1800 while
`max 400 (readingSpeed - 200)` is 4800. -/
theorem initial_overlapTime_mismatch :
    initialPagerState.overlapTime ≠ max 400 (initialPagerState.readingSpeed - 200) := by
  decide

/-- Claim C7, amended: starting from the default pager state
(readingSpeed 5000) and applying any sequence of ±500 adjustments, the
reading speed never leaves `[500, 10000]`, and after every adjustment
(though not in the untouched initial state, whose overlapTime is the
hard-coded 1800) `overlapTime = max 400 (readingSpeed - 200)`. -/
theorem readingSpeed_clamped_invariant (ds : List Int)
    (_hds : ∀ d ∈ ds, d = 500 ∨ d = -500) :
    500 ≤ (ds.foldl adjustReadingSpeed initialPagerState).readingSpeed ∧
    (ds.foldl adjustReadingSpeed initialPagerState).readingSpeed ≤ 10000 ∧
    (ds ≠ [] →
      (ds.foldl adjustReadingSpeed initialPagerState).overlapTime
        = max 400 ((ds.foldl adjustReadingSpeed initialPagerState).readingSpeed - 200)) := by
  have hb := foldl_adjust_bounds ds initialPagerState (by decide) (by decide)
  exact ⟨hb.1, hb.2, fun h => foldl_adjust_overlap ds initialPagerState h⟩

/-- Witness for the amended claim C7 after one `setSpeed(-500)`. -/
theorem readingSpeed_clamped_invariant_witness :
    500 ≤ (([-500] : List Int).foldl adjustReadingSpeed initialPagerState).readingSpeed ∧
    (([-500] : List Int).foldl adjustReadingSpeed initialPagerState).readingSpeed ≤ 10000 ∧
    (([-500] : List Int).foldl adjustReadingSpeed initialPagerState).overlapTime
      = max 400 ((([-500] : List Int).foldl adjustReadingSpeed initialPagerState).readingSpeed - 200) := by
  have h := readingSpeed_clamped_invariant [-500] (by decide)
  exact ⟨h.1, h.2.1, h.2.2 (by decide)⟩

/-- Claim C10: `displayTwitterChunk` produces a display call exactly
under the guard `0 ≤ index < twitterChunks.length` (in particular never
for an empty chunk list, and the chunk access inside the guard is in
bounds), and the displayed content is the progress label
`[index+1/total]` followed by a blank line and the chunk. -/
theorem displayTwitterChunk_guard (chunks : List (List Char)) (index readingSpeed : Int) :
    (¬(0 ≤ index ∧ index < (chunks.length : Int)) →
      displayTwitterChunk chunks index readingSpeed = none) ∧
    (chunks = [] → displayTwitterChunk chunks index readingSpeed = none) ∧
    (0 ≤ index → index < (chunks.length : Int) →
      displayTwitterChunk chunks index readingSpeed =
        some ⟨progressLabel (index.toNat + 1) chunks.length ++ ['\n', '\n']
          ++ chunks.getD index.toNat [], readingSpeed⟩) := by
  refine ⟨?_, ?_, ?_⟩
  · intro h
    simp only [displayTwitterChunk]
    rw [if_neg h]
  · intro h
    subst h
    simp only [displayTwitterChunk]
    rw [if_neg (by simp)]
  · intro h1 h2
    simp only [displayTwitterChunk]
    rw [if_pos ⟨h1, h2⟩]

/-- Witness for claim C10: an in-range display with its label, and the
out-of-range no-display case. -/
theorem displayTwitterChunk_guard_witness :
    displayTwitterChunk [['h', 'i']] 0 5000
      = some ⟨progressLabel 1 1 ++ ['\n', '\n'] ++ ['h', 'i'], 5000⟩ ∧
    displayTwitterChunk [] 3 5000 = none := by
  refine ⟨?_, (displayTwitterChunk_guard [] 3 5000).2.1 rfl⟩
  have h := (displayTwitterChunk_guard [['h', 'i']] 0 5000).2.2 (by decide) (by decide)
  rw [h]
  decide

/-- Claim C3 counterexample: on `c3Text` with `maxLength = 10` from
`startPos = 0` the break rule as worded by the claim (qualification on
the break position `pos + 2`) would break at 7, while the code
(qualification on the match position `pos`) rejects the sentence break
at 5 and breaks at the space fallback, position 10. -/
theorem specBreak_rule_mismatch :
    specBreakEndPos c3Text 10 0 = 7 ∧ computeEndPos c3Text 10 0 = 10 ∧
    specBreakEndPos c3Text 10 0 ≠ computeEndPos c3Text 10 0 := by
  exact ⟨by decide, by decide, by decide⟩

/-- Witness for the amended claim C3, exercising all three branches:
the sentence break at 6 for `c3aText` (end 8), the space fallback at 8
for `c3bText` (end 9), and the hard cut for `c3cText` (end 10). -/
theorem computeEndPos_break_selection_witness :
    computeEndPos c3aText 6 0 = 8 ∧ computeEndPos c3bText 10 0 = 9 ∧
    computeEndPos c3cText 10 0 = 10 := by
  refine ⟨?_, ?_, ?_⟩
  · have h := (computeEndPos_break_selection c3aText 6 0 (by decide) (by decide) (by decide)).1
      6 (by decide) (by decide) (by decide) (by decide)
    rw [h]
    decide
  · have h0 := computeEndPos_break_selection c3bText 10 0 (by decide) (by decide) (by decide)
    have h := (h0.2 (by decide)).1 8 (by decide) (by decide) (by decide) (by decide)
    rw [h]
    decide
  · have h0 := computeEndPos_break_selection c3cText 10 0 (by decide) (by decide) (by decide)
    have h := (h0.2 (by decide)).2 (by decide)
    rw [h]
    decide
